import Mathlib

set_option linter.unusedVariables false

/-!
Shallow embedding of the Unicode codepoint-width/grapheme table generator
(`CodepointWidthDetector_gen.go`) of the terminal repository, together with the
two generated runtime lookup functions (`ucdGraphemeJoins` emitted by `run`).

Machine integers (`TrieType = uint32`, `uint8` category values) are embedded as
`Nat`; all values produced by the generator fit their machine types, and where a
claim quantifies over inputs the corresponding range hypotheses are stated
explicitly.  Go's panicking array indexing is embedded as `List.getD` with
default `0`; the theorems only exercise in-bounds indices.
-/

namespace CWDGen

/-! ### CharacterWidth and ClusterBreak enumerations (Go `const` blocks) -/

def cwZeroWidth : Nat := 0
def cwNarrow : Nat := 1
def cwWide : Nat := 2
def cwAmbiguous : Nat := 3

def cbOther : Nat := 0
def cbControl : Nat := 1
def cbExtend : Nat := 2
def cbRI : Nat := 3
def cbPrepend : Nat := 4
def cbHangulL : Nat := 5
def cbHangulV : Nat := 6
def cbHangulT : Nat := 7
def cbHangulLV : Nat := 8
def cbHangulLVT : Nat := 9
def cbInCBLinker : Nat := 10
def cbInCBConsonant : Nat := 11
def cbExtPic : Nat := 12
def cbZWJ : Nat := 13
def cbCount : Nat := 14

/-- `Ω` is what the Go source uses for UAX #29's "÷" (break): `var Ω uint8 = 0b11`. -/
def Ω : Nat := 3

/-- The two-state join-rule table of the Go source (`var JoinRules`),
transcribed row by row.  Outer index: state (0 = base table, 1 = the table
entered after a Regional Indicator pair); middle index: leading category;
inner index: trailing category. -/
def JoinRules : List (List (List Nat)) :=
  [ -- Base table
    [ /- cbOther         -/ [Ω, Ω, 0, Ω, Ω, Ω, Ω, Ω, Ω, Ω, 0, Ω, Ω, 0],
      /- cbControl       -/ [Ω, Ω, Ω, Ω, Ω, Ω, Ω, Ω, Ω, Ω, Ω, Ω, Ω, Ω],
      /- cbExtend        -/ [Ω, Ω, 0, Ω, Ω, Ω, Ω, Ω, Ω, Ω, 0, Ω, Ω, 0],
      /- cbRI            -/ [Ω, Ω, 0, 1, Ω, Ω, Ω, Ω, Ω, Ω, 0, Ω, Ω, 0],
      /- cbPrepend       -/ [0, Ω, 0, 0, 0, 0, 0, 0, 0, 0, 0, 0, 0, 0],
      /- cbHangulL       -/ [Ω, Ω, 0, Ω, Ω, 0, 0, Ω, 0, 0, 0, Ω, Ω, 0],
      /- cbHangulV       -/ [Ω, Ω, 0, Ω, Ω, Ω, 0, 0, Ω, Ω, 0, Ω, Ω, 0],
      /- cbHangulT       -/ [Ω, Ω, 0, Ω, Ω, Ω, Ω, 0, Ω, Ω, 0, Ω, Ω, 0],
      /- cbHangulLV      -/ [Ω, Ω, 0, Ω, Ω, Ω, 0, 0, Ω, Ω, 0, Ω, Ω, 0],
      /- cbHangulLVT     -/ [Ω, Ω, 0, Ω, Ω, Ω, Ω, 0, Ω, Ω, 0, Ω, Ω, 0],
      /- cbInCBLinker    -/ [Ω, Ω, 0, Ω, Ω, Ω, Ω, Ω, Ω, Ω, 0, 0, Ω, 0],
      /- cbInCBConsonant -/ [Ω, Ω, 0, Ω, Ω, Ω, Ω, Ω, Ω, Ω, 0, Ω, Ω, 0],
      /- cbExtPic        -/ [Ω, Ω, 0, Ω, Ω, Ω, Ω, Ω, Ω, Ω, 0, Ω, Ω, 0],
      /- cbZWJ           -/ [Ω, Ω, 0, Ω, Ω, Ω, Ω, Ω, Ω, Ω, 0, Ω, 0, 0]],
    -- Copy of the base table, with further Regional Indicator joins forbidden
    [ /- cbOther         -/ [Ω, Ω, 0, Ω, Ω, Ω, Ω, Ω, Ω, Ω, 0, Ω, Ω, 0],
      /- cbControl       -/ [Ω, Ω, Ω, Ω, Ω, Ω, Ω, Ω, Ω, Ω, Ω, Ω, Ω, Ω],
      /- cbExtend        -/ [Ω, Ω, 0, Ω, Ω, Ω, Ω, Ω, Ω, Ω, 0, Ω, Ω, 0],
      /- cbRI            -/ [Ω, Ω, 0, Ω, Ω, Ω, Ω, Ω, Ω, Ω, 0, Ω, Ω, 0],
      /- cbPrepend       -/ [0, Ω, 0, 0, 0, 0, 0, 0, 0, 0, 0, 0, 0, 0],
      /- cbHangulL       -/ [Ω, Ω, 0, Ω, Ω, 0, 0, Ω, 0, 0, 0, Ω, Ω, 0],
      /- cbHangulV       -/ [Ω, Ω, 0, Ω, Ω, Ω, 0, 0, Ω, Ω, 0, Ω, Ω, 0],
      /- cbHangulT       -/ [Ω, Ω, 0, Ω, Ω, Ω, Ω, 0, Ω, Ω, 0, Ω, Ω, 0],
      /- cbHangulLV      -/ [Ω, Ω, 0, Ω, Ω, Ω, 0, 0, Ω, Ω, 0, Ω, Ω, 0],
      /- cbHangulLVT     -/ [Ω, Ω, 0, Ω, Ω, Ω, Ω, 0, Ω, Ω, 0, Ω, Ω, 0],
      /- cbInCBLinker    -/ [Ω, Ω, 0, Ω, Ω, Ω, Ω, Ω, Ω, Ω, 0, 0, Ω, 0],
      /- cbInCBConsonant -/ [Ω, Ω, 0, Ω, Ω, Ω, Ω, Ω, Ω, Ω, 0, Ω, Ω, 0],
      /- cbExtPic        -/ [Ω, Ω, 0, Ω, Ω, Ω, Ω, Ω, Ω, Ω, 0, Ω, Ω, 0],
      /- cbZWJ           -/ [Ω, Ω, 0, Ω, Ω, Ω, Ω, Ω, Ω, Ω, 0, Ω, 0, 0]]]

/-! ### Rule-table packing (Go `prepareRulesTable`) -/

/-- Packing of one row of verdicts into a `uint32`:
`nextIndices |= uint32(nextIndex) << (trail * 2)` over the row.
(The Go code panics when a row is longer than 16 entries or an entry exceeds
`Ω`; `JoinRules` satisfies both bounds.) -/
def packRow (row : List Nat) : Nat :=
  row.enum.foldl (fun nextIndices p => nextIndices ||| (p.2 <<< (p.1 * 2))) 0

/-- Go `prepareRulesTable`: for every state a row of exactly 16 packed
`uint32` values, one per lead category; leads beyond the 14 table rows keep the
zero the row array was allocated with. -/
def prepareRulesTable (rules : List (List (List Nat))) : List (List Nat) :=
  rules.map (fun table => (List.range 16).map (fun lead => packRow (table.getD lead [])))

/-- Go `rulesSize`: each packed item is 32 bits = 4 bytes. -/
def rulesSize (rules : List (List Nat)) : Nat :=
  rules.length * (rules.getD 0 []).length * 4

/-- The packed table the generator emits (`s_joinRules`). -/
def sJoinRules : List (List Nat) := prepareRulesTable JoinRules

/-- The generated runtime lookup (emitted by `run`):
`ucdGraphemeJoins(state, lead, trail) = (s_joinRules[state][lead & 15] >> ((trail & 15) * 2)) & 3`
(`bits.Len8(Ω) = 2` and the mask is `Ω = 3`). -/
def ucdGraphemeJoins (rules : List (List Nat)) (state lead trail : Nat) : Nat :=
  let l := lead &&& 15
  let t := trail &&& 15
  ((rules.getD state []).getD l 0 >>> (t * 2)) &&& 3

/-- The runtime join lookup specialized to the generated table. -/
def joins (state lead trail : Nat) : Nat :=
  ucdGraphemeJoins sJoinRules state lead trail

/-- The generated `ucdGraphemeDone`: a scan stops when the joined state is `Ω`. -/
def ucdGraphemeDone (state : Nat) : Bool := state == Ω

/-- The generated `ucdToCharacterWidth`: width is the top two bits of a
classification value. -/
def ucdToCharacterWidth (val : Nat) : Nat := val >>> 6

/-- Go `trieValue`: pack a cluster-break category and a width into one value. -/
def trieValue (cb width : Nat) : Nat := cb ||| (width <<< 6)

/-! ### Grapheme boundary scans

Modelled from the spec: the runtime scan helpers (`GraphemeNext` /
`GraphemePrev` of `CodepointWidthDetector`) are not among the sources — only
their tests are — so the scan loops are modelled from spec §4.4: starting in
the default state, classify adjacent pairs and test `joins`, threading the
returned state across the scan and resetting it to the default state whenever
a boundary (`Ω`) is produced.  The join table itself (`joins`, `sJoinRules`,
`JoinRules`) is embedded from the source. -/

/-- Modelled from the spec: forward scan loop of the missing runtime helper
(`GraphemeNext`), emitting all boundary offsets strictly after position `pos`;
`c` is the category at `pos`, `state` the threaded join state, reset to the
default state at each boundary; the verdicts come from the source's tables via
`joins`. -/
def fwdBreaks (pos state c : Nat) : List Nat → List Nat
  | [] => [pos + 1]
  | t :: rest =>
    if joins state c t = Ω then (pos + 1) :: fwdBreaks (pos + 1) 0 t rest
    else fwdBreaks (pos + 1) (joins state c t) t rest

/-- Modelled from the spec: all boundary offsets of a forward scan over a
category sequence (boundaries at 0 and at the length included). -/
def fwdBounds (cats : List Nat) : List Nat :=
  match cats with
  | [] => [0]
  | c :: rest => 0 :: fwdBreaks 0 0 c rest

/-- Modelled from the spec: backward scan loop of the missing runtime helper
(`GraphemePrev`), over the reversed remainder of the text: `c` is the current
trailing category, `pos` the candidate boundary offset before it, and the list
holds the categories to its left, nearest first. -/
def bwdBreaks (pos state c : Nat) : List Nat → List Nat
  | [] => [0]
  | l :: rest =>
    if joins state l c = Ω then pos :: bwdBreaks (pos - 1) 0 l rest
    else bwdBreaks (pos - 1) (joins state l c) l rest

/-- Modelled from the spec: all boundary offsets of a backward scan (emitted
from the end towards 0). -/
def bwdBounds (cats : List Nat) : List Nat :=
  match cats.reverse with
  | [] => [0]
  | c :: rest => cats.length :: bwdBreaks (cats.length - 1) 0 c rest

/-- Modelled from the spec: length of the grapheme cluster that starts at the
head of `vals` (classification values), per the §4.4 scan loop. -/
def clusterLen (state : Nat) : List Nat → Nat
  | [] => 0
  | [_] => 1
  | v :: w :: rest =>
    if joins state v w = Ω then 1 else 1 + clusterLen (joins state v w) (w :: rest)

/-- Modelled from the spec: a cluster's reported width is the sum of its code
points' column counts (§8: "each contributing its own column"), where a
classification value contributes `ucdToCharacterWidth` columns: ZeroWidth 0,
Narrow 1, Wide 2 (Ambiguous is treated as narrow by convention). -/
def colWidth (v : Nat) : Nat :=
  match ucdToCharacterWidth v with
  | 0 => 0
  | 1 => 1
  | 2 => 2
  | _ => 1

/-- Modelled from the spec: reported width of the cluster of length `len` at
the head of `vals`. -/
def clusterWidth (vals : List Nat) (len : Nat) : Nat :=
  ((vals.take len).map colWidth).sum

/-! ### Theorems on the join-rule table -/

/-- Entry of `JoinRules` at (state, lead, trail). -/
def jrEntry (s l t : Nat) : Nat := ((JoinRules.getD s []).getD l []).getD t 0

/-- The classification values of the test sequence U+0915, U+094D, U+094D,
U+0924 as the claim gives them: IndicConjunctConsonant/Narrow,
IndicConjunctLinker/ZeroWidth twice, IndicConjunctConsonant/Narrow. -/
def devanagariVals : List Nat :=
  [trieValue cbInCBConsonant cwNarrow, trieValue cbInCBLinker cwZeroWidth,
   trieValue cbInCBLinker cwZeroWidth, trieValue cbInCBConsonant cwNarrow]

/-! ### Trie compression (Go `buildTrie` and helpers)

`TrieType` is `uint32`; elements are embedded as `Nat` holding `uint32`
values.  `findExisting` reinterprets the element slices as little-endian byte
slices (`unsafe.Slice` over `uint32` data), so the byte view is embedded
explicitly. -/

/-- Little-endian `uint32` byte view of one element. -/
def leBytes (v : Nat) : List Nat :=
  [v % 256, v / 256 % 256, v / 65536 % 256, v / 16777216 % 256]

/-- Byte view of a `[]TrieType` slice, as `unsafe.Slice` produces it. -/
def toBytes (l : List Nat) : List Nat := l.flatMap leBytes

/-- Whether `n` occurs at the head of `h` (`bytes.Index` match test). -/
def startsWithList (h n : List Nat) : Bool :=
  match n, h with
  | [], _ => true
  | _ :: _, [] => false
  | a :: as, b :: bs => a == b && startsWithList bs as

/-- Go `bytes.Index`: index of the first occurrence of `n` in `h`. -/
def bytesIndex (h n : List Nat) : Option Nat :=
  (List.range (h.length + 1)).find? (fun i => startsWithList (h.drop i) n)

/-- The loop of Go `findExisting`:
```
for {
    i = bytes.Index(h[i:], n)
    if i == -1 { return -1 }
    if i%s == 0 { return i / s }
}
```
Note that `i` is assigned the index *relative to* `h[i:]` and then used both
as an absolute element index and as the next slicing offset.  The loop always
terminates within two iterations (an unaligned first hit `i` makes
`bytes.Index(h[i:], n)` return 0, which is aligned), so the fuel
`h.length + 1` is never exhausted. -/
def feLoop : Nat → List Nat → List Nat → Nat → Int
  | 0, _, _, _ => -1
  | fuel + 1, h, n, i =>
    match bytesIndex (h.drop i) n with
    | none => -1
    | some j => if j % 4 = 0 then ((j / 4 : Nat) : Int) else feLoop fuel h n j

/-- Go `findExisting`: byte-level search of `needle` in `haystack`
(`s = unsafe.Sizeof(TrieType(0)) = 4`). -/
def findExisting (haystack needle : List Nat) : Int :=
  if haystack.isEmpty || needle.isEmpty then -1
  else feLoop (toBytes haystack).length.succ (toBytes haystack) (toBytes needle) 0

/-- The loop of Go `measureOverlap`, counting down from `min` of the lengths;
`overlap = 0` always matches, terminating the countdown. -/
def moLoop : Nat → List Nat → List Nat → Nat
  | 0, _, _ => 0
  | ov + 1, prev, next =>
    if prev.drop (prev.length - (ov + 1)) = next.take (ov + 1) then ov + 1
    else moLoop ov prev next

/-- Go `measureOverlap`: how much of `prev`'s tail overlaps `next`'s head. -/
def measureOverlap (prev next : List Nat) : Nat :=
  moLoop (min prev.length next.length) prev next

/-- The per-stage compression state of `buildTrie`'s inner loop: the
content-addressed chunk cache, the compressed output, and the chunk offsets.
The Go cache key is the chunk's raw byte string; for `uint32` elements that is
injective, so the cache is keyed by the chunk itself. -/
structure CState where
  cache : List (List Nat × Nat)
  compressed : List Nat
  offsets : List Nat
deriving DecidableEq

/-- Go map lookup on the chunk cache. -/
def lookupChunk : List (List Nat × Nat) → List Nat → Option Nat
  | [], _ => none
  | (k, v) :: rest, chunk => if k = chunk then some v else lookupChunk rest chunk

/-- One iteration of `buildTrie`'s chunk loop. -/
def stepChunk (st : CState) (chunk : List Nat) : CState :=
  match lookupChunk st.cache chunk with
  | some offset => ⟨st.cache, st.compressed, st.offsets ++ [offset]⟩
  | none =>
    let existing := findExisting st.compressed chunk
    if existing ≠ -1 then
      ⟨st.cache ++ [(chunk, existing.toNat)], st.compressed, st.offsets ++ [existing.toNat]⟩
    else
      let overlap := measureOverlap st.compressed chunk
      let compressed := st.compressed ++ chunk.drop overlap
      let offset := compressed.length - chunk.length
      ⟨st.cache ++ [(chunk, offset)], compressed, st.offsets ++ [offset]⟩

/-- Split into chunks of `2^shift` elements (`chunkSize := 1 << shift`,
`uncompressed[i:min(len, i+chunkSize)]` for `i` stepping by `chunkSize`). -/
def chunksB (shift : Nat) (l : List Nat) : List (List Nat) :=
  match l with
  | [] => []
  | x :: xs => ((x :: xs).take (2 ^ shift)) :: chunksB shift ((x :: xs).drop (2 ^ shift))
termination_by l.length
decreasing_by
  simp only [List.length_drop, List.length_cons]
  have h2 : 0 < 2 ^ shift := Nat.pos_pow_of_pos _ (by omega)
  omega

/-- One pass of `buildTrie`'s outer loop for a single shift. -/
def compressStage (shift : Nat) (uncompressed : List Nat) : CState :=
  (chunksB shift uncompressed).foldl stepChunk ⟨[], [], []⟩

/-- A Go `Stage`. -/
structure GoStage where
  Values : List Nat
  Shift : Nat
  Mask : Nat
  Bits : Nat
deriving DecidableEq

/-- A Go `Trie`. -/
structure GoTrie where
  Stages : List GoStage
  TotalSize : Nat
deriving DecidableEq

/-- `buildTrie`'s stage loop: one stage per shift (finest first), the offsets
array feeding the next pass, then the final stage holding the remaining array
with mask `math.MaxInt32`; `Bits` is filled in afterwards. -/
def buildStagesLoop : List Nat → List Nat → Nat → List GoStage
  | uncompressed, [], cumulativeShift => [⟨uncompressed, cumulativeShift, 2147483647, 0⟩]
  | uncompressed, shift :: rest, cumulativeShift =>
    let st := compressStage shift uncompressed
    ⟨st.compressed, cumulativeShift, 2 ^ shift - 1, 0⟩ ::
      buildStagesLoop st.offsets rest (cumulativeShift + shift)

/-- Minimal element width for a stage's maximum value. -/
def bitsFor (m : Nat) : Nat := if m ≤ 0xff then 8 else if m ≤ 0xffff then 16 else 32

/-- The post-pass setting `s.Bits` from `slices.Max(s.Values)` (stages built
here are never empty; the fold's base burns the hole `slices.Max` would panic
on). -/
def setBits (s : GoStage) : GoStage :=
  ⟨s.Values, s.Shift, s.Mask, bitsFor (s.Values.foldl max 0)⟩

/-- Go `buildTrie`: build all stages, reverse them into root-first order,
compute per-stage bit widths and the total serialized size. -/
def buildTrie (uncompressed : List Nat) (shifts : List Nat) : GoTrie :=
  let stages := ((buildStagesLoop uncompressed shifts 0).reverse).map setBits
  ⟨stages, (stages.map (fun s => (s.Bits / 8) * s.Values.length)).sum⟩

/-- The trie read-back of `run`'s sanity check (also the generated
`ucdLookup`): `v = s.Values[v + ((cp >> s.Shift) & s.Mask)]` chained across
the stages root to leaf, starting from 0. -/
def trieLookup (t : GoTrie) (cp : Nat) : Nat :=
  t.Stages.foldl (fun v s => s.Values.getD (v + ((cp >>> s.Shift) &&& s.Mask)) 0) 0

/-! ### A full-size dense array on which the trie round-trip fails

The `findExisting` defect above corrupts `buildTrie` on some inputs: the
following 1,114,112-entry array (all `uint32` values) makes chunk `[1, 0]` get
offset 0 — where `[16777216, 0]` is stored — so the rebuilt value at code
point 4 is 16777216 instead of 1.  (`run`'s own sanity check would abort on
this trie.) -/

/-- A dense array of 1,114,112 `uint32` values: six crafted entries followed
by zeros. -/
def badValues : List Nat :=
  16777216 :: 0 :: 33554432 :: 3 :: 1 :: 0 :: List.replicate 1114106 0

/-! ### Shift search (Go `buildBestTrie`) -/

/-- Go `math.MaxInt` (64-bit), the sentinel `TotalSize` of the initial best. -/
def maxIntGo : Nat := 9223372036854775807

/-- The shift tuple `buildBestTrie` derives from candidate index `i`:
`shifts[j] = minShift + i % delta`, `i /= delta`, over `stages - 1` slots. -/
def genShifts (delta lo : Nat) : Nat → Nat → List Nat
  | 0, _ => []
  | k + 1, i => (lo + i % delta) :: genShifts delta lo k (i / delta)

/-- Go `buildBestTrie`: try all `delta^(stages-1)` shift combinations and keep
the first trie of minimal `TotalSize`.  (The Go code fans the candidates out to
goroutines and reduces over a channel; only the minimal `TotalSize` — which is
order-independent — is claimed of the result, and the model reduces in index
order.) -/
def buildBestTrie (uncompressed : List Nat) (minShift maxShift stages : Nat) : GoTrie :=
  let delta := maxShift - minShift + 1
  let iters := delta ^ (stages - 1)
  (List.range iters).foldl
    (fun bestTrie i =>
      let t := buildTrie uncompressed (genShifts delta minShift (stages - 1) i)
      if bestTrie.TotalSize > t.TotalSize then t else bestTrie)
    ⟨[], maxIntGo⟩

/-! ### UCD extraction (Go `extractValuesFromUCD`)

The XML fields are embedded as the strings the unmarshaller leaves behind: an
absent attribute is the empty string, an absent `cp`/`first-cp`/`last-cp` is 0
(the Go zero values `coalesce` and the `char.Codepoint != 0` test rely on). -/

/-- One `<char>`/`<reserved>`/`<surrogate>`/`<noncharacter>` record. -/
structure UcdChar where
  cp : Nat
  firstCp : Nat
  lastCp : Nat
  gc : String
  gcb : String
  incb : String
  extPict : String
  ea : String
deriving DecidableEq

/-- One `<group>` record with its inheritable attributes. -/
structure UcdGroup where
  gc : String
  gcb : String
  incb : String
  extPict : String
  ea : String
  chars : List UcdChar
deriving DecidableEq

/-- The parsed UCD repertoire. -/
structure UCDData where
  groups : List UcdGroup
deriving DecidableEq

/-- Go `coalesce`: first non-empty of the record's own and the group's value. -/
def coalesce (a b : String) : String := if a ≠ "" then a else b

/-- The record's code-point range:
`firstCp, lastCp := first-cp, last-cp`, overridden by `cp` when present. -/
def charRange (c : UcdChar) : Nat × Nat :=
  if c.cp ≠ 0 then (c.cp, c.cp) else (c.firstCp, c.lastCp)

/-- A generation error, carrying the diagnostic text and the offending range
(the Go code formats them into one `error` via `fmt.Errorf`). -/
structure ExtractErr where
  msg : String
  firstCp : Nat
  lastCp : Nat
deriving DecidableEq

/-- `strings.HasPrefix s pre` over the characters of the strings. -/
def startsL : List Char → List Char → Bool
  | _, [] => true
  | [], _ :: _ => false
  | a :: as, b :: bs => a == b && startsL as bs

/-- `strings.HasPrefix`. -/
def strStarts (s pre : String) : Bool := startsL s.data pre.data

/-- The `switch graphemeClusterBreak` of the Go source: `some` category or
`none` for the `default:` error branch. -/
def mapGCB (s : String) : Option Nat :=
  if s = "XX" then some cbOther
  else if s = "CR" ∨ s = "LF" ∨ s = "CN" then some cbControl
  else if s = "EX" ∨ s = "SM" then some cbExtend
  else if s = "PP" then some cbPrepend
  else if s = "ZWJ" then some cbZWJ
  else if s = "RI" then some cbRI
  else if s = "L" then some cbHangulL
  else if s = "V" then some cbHangulV
  else if s = "T" then some cbHangulT
  else if s = "LV" then some cbHangulLV
  else if s = "LVT" then some cbHangulLVT
  else none

/-- The `switch eastAsian` of the Go source. -/
def mapEA (s : String) : Option Nat :=
  if s = "N" ∨ s = "Na" ∨ s = "H" then some cwNarrow
  else if s = "F" ∨ s = "W" then some cwWide
  else if s = "A" then some cwAmbiguous
  else none

/-- The `if extendedPictographic == "Y"` step of the per-record body:
recategorize Other to ExtendedPictographic, rejecting any other category. -/
def epStep (graphemeClusterBreak extendedPictographic : String) (fl : Nat × Nat)
    (cb0 : Nat) : Except ExtractErr Nat :=
  if extendedPictographic = "Y" then
    if cb0 ≠ cbOther then
      .error ⟨"unexpected GCB " ++ graphemeClusterBreak ++ " with ExtPict=Y", fl.1, fl.2⟩
    else .ok cbExtPic
  else .ok cb0

/-- The `switch indicConjunctBreak` step of the per-record body. -/
def incbStep (graphemeClusterBreak indicConjunctBreak : String) (fl : Nat × Nat)
    (cb1 : Nat) : Except ExtractErr Nat :=
  if indicConjunctBreak = "None" ∨ indicConjunctBreak = "Extend" then .ok cb1
  else if indicConjunctBreak = "Linker" then
    if cb1 ≠ cbExtend then
      .error ⟨"unexpected GCB " ++ graphemeClusterBreak ++ " with InCB=Linker", fl.1, fl.2⟩
    else .ok cbInCBLinker
  else if indicConjunctBreak = "Consonant" then
    if cb1 ≠ cbOther then
      .error ⟨"unexpected GCB " ++ graphemeClusterBreak ++ " with InCB=Consonant", fl.1, fl.2⟩
    else .ok cbInCBConsonant
  else .error ⟨"unrecognized InCB " ++ indicConjunctBreak, fl.1, fl.2⟩

/-- The `switch eastAsian` step plus the General_Category zero-width override
and the `trieValue` packing, finishing the per-record body. -/
def eaStep (generalCategory eastAsian : String) (fl : Nat × Nat)
    (cb2 : Nat) : Except ExtractErr Nat :=
  match mapEA eastAsian with
  | none => .error ⟨"unrecognized ea " ++ eastAsian, fl.1, fl.2⟩
  | some width0 =>
    let width := if strStarts generalCategory "M" || generalCategory = "Cf" then
      cwZeroWidth else width0
    .ok (trieValue cb2 width)

/-- The per-record body of `extractValuesFromUCD`'s loops: coalesce the
attributes and run the Go chain of `switch`es in source order — GCB mapping,
ExtPict recategorization, InCB recategorization, East_Asian_Width mapping with
the width override — returning the first error hit. -/
def processChar (g : UcdGroup) (c : UcdChar) : Except ExtractErr Nat :=
  let generalCategory := coalesce c.gc g.gc
  let graphemeClusterBreak := coalesce c.gcb g.gcb
  let indicConjunctBreak := coalesce c.incb g.incb
  let extendedPictographic := coalesce c.extPict g.extPict
  let eastAsian := coalesce c.ea g.ea
  let fl := charRange c
  match mapGCB graphemeClusterBreak with
  | none => .error ⟨"unrecognized GCB " ++ graphemeClusterBreak, fl.1, fl.2⟩
  | some cb0 =>
    match epStep graphemeClusterBreak extendedPictographic fl cb0 with
    | .error e => .error e
    | .ok cb1 =>
      match incbStep graphemeClusterBreak indicConjunctBreak fl cb1 with
      | .error e => .error e
      | .ok cb2 => eaStep generalCategory eastAsian fl cb2

/-- `fillRange(values[a:b], v)` on the dense array.  (Go's slicing panics when
the range leaves the array; the model clamps instead — every UCD record's
range lies within the 1,114,112-entry array, where the two agree.) -/
def setRange (values : List Nat) (a b v : Nat) : List Nat :=
  values.take a ++ List.replicate (min b values.length - a) v ++ values.drop b

/-- The inner (`char`) loop of `extractValuesFromUCD`. -/
def processChars (g : UcdGroup) (values : List Nat) : List UcdChar → Except ExtractErr (List Nat)
  | [] => .ok values
  | c :: rest =>
    match processChar g c with
    | .error e => .error e
    | .ok v =>
      let fl := charRange c
      processChars g (setRange values fl.1 (fl.2 + 1) v) rest

/-- The outer (`group`) loop of `extractValuesFromUCD`. -/
def processGroups (values : List Nat) : List UcdGroup → Except ExtractErr (List Nat)
  | [] => .ok values
  | g :: rest =>
    match processChars g values g.chars with
    | .error e => .error e
    | .ok values' => processGroups values' rest

/-- Go `extractValuesFromUCD`: a dense array of 1,114,112 entries defaulted to
{Other, Narrow}, overwritten record by record, then the two literal post-pass
overrides (box drawing/block elements to {Other, Narrow}; U+FE0F to
{Extend, Wide}). -/
def extractValuesFromUCD (ucd : UCDData) : Except ExtractErr (List Nat) :=
  match processGroups (List.replicate 1114112 (trieValue cbOther cwNarrow)) ucd.groups with
  | .error e => .error e
  | .ok values =>
    .ok (setRange (setRange values 0x2500 (0x259F + 1) (trieValue cbOther cwNarrow))
      0xFE0F (0xFE0F + 1) (trieValue cbExtend cwWide))

/-- Whether an `Except` is an error. -/
def isErr {α : Type} : Except ExtractErr α → Bool
  | .error _ => true
  | .ok _ => false

/-- Membership in the claim's recognized Grapheme_Cluster_Break set
{XX, CR, LF, CN, EX, SM, PP, ZWJ, RI, L, V, T, LV, LVT}. -/
def gcbValid (s : String) : Bool :=
  s == "XX" || s == "CR" || s == "LF" || s == "CN" || s == "EX" || s == "SM" ||
  s == "PP" || s == "ZWJ" || s == "RI" || s == "L" || s == "V" || s == "T" ||
  s == "LV" || s == "LVT"

/-- Membership in the claim's recognized Indic_Conjunct_Break set
{None, Extend, Linker, Consonant}. -/
def incbValid (s : String) : Bool :=
  s == "None" || s == "Extend" || s == "Linker" || s == "Consonant"

/-- Membership in the claim's recognized East_Asian_Width set
{N, Na, H, F, W, A}. -/
def eaValid (s : String) : Bool :=
  s == "N" || s == "Na" || s == "H" || s == "F" || s == "W" || s == "A"

/-- The claim's characterization of a rejected record, written from the claim's
words: an unrecognized GCB/InCB/East_Asian_Width value, `ExtPict="Y"` on a
record whose GCB-derived category is not Other, `InCB=Linker` when the
(post-ExtPict) category is not Extend, or `InCB=Consonant` when it is not
Other. -/
def claimBadChar (g : UcdGroup) (c : UcdChar) : Bool :=
  let gcb := coalesce c.gcb g.gcb
  let incb := coalesce c.incb g.incb
  let ep := coalesce c.extPict g.extPict
  let ea := coalesce c.ea g.ea
  let catAfterEP := if ep = "Y" then cbExtPic else (mapGCB gcb).getD cbCount
  !(gcbValid gcb) ||
  !(incbValid incb) ||
  !(eaValid ea) ||
  (ep == "Y" && !((mapGCB gcb) == some cbOther)) ||
  (incb == "Linker" && !(catAfterEP == cbExtend)) ||
  (incb == "Consonant" && !(catAfterEP == cbOther))

/-- A malformed record: GCB="ZZ" on U+0041. -/
def badGcbChar : UcdChar := ⟨65, 0, 0, "Lo", "ZZ", "None", "N", "Na"⟩

/-- A group holding `badGcbChar`. -/
def badGcbGroup : UcdGroup := ⟨"", "", "", "", "", [badGcbChar]⟩

/-- A UCD repertoire holding `badGcbGroup`. -/
def ucdBadSample : UCDData := ⟨[badGcbGroup]⟩

/-- A well-formed combining-mark record with raw East_Asian_Width "W". -/
def markWideChar : UcdChar := ⟨0x300, 0, 0, "Mn", "EX", "None", "N", "W"⟩

/-- A group holding `markWideChar`. -/
def markWideGroup : UcdGroup := ⟨"", "", "", "", "", [markWideChar]⟩

/-- Break test of the memoryless (state-0) scan. -/
def goBr (l t : Nat) : Bool := joins 0 l t == Ω

/-- Memoryless forward scan: `fwdBreaks` with the state fixed at the default. -/
def fwdM (br : Nat → Nat → Bool) (pos c : Nat) : List Nat → List Nat
  | [] => [pos + 1]
  | t :: rest =>
    if br c t then (pos + 1) :: fwdM br (pos + 1) t rest else fwdM br (pos + 1) t rest

/-- Memoryless backward scan: `bwdBreaks` with the state fixed at the default. -/
def bwdM (br : Nat → Nat → Bool) (pos c : Nat) : List Nat → List Nat
  | [] => [0]
  | l :: rest =>
    if br l c then pos :: bwdM br (pos - 1) l rest else bwdM br (pos - 1) l rest


/-! ## Theorems -/

/-- C5: `JoinRules` consists of exactly two 14×14 tables; the two tables agree
everywhere except at (RegionalIndicator, RegionalIndicator); that cell joins
into state 1 in the default-state table and breaks in the post-RI-pair table;
and every other entry of either table is a break (`Ω`) or a join with
destination state 0. -/
theorem joinRules_two_state_invariant :
    JoinRules.length = 2 ∧
    (∀ t : Fin 2, (JoinRules.getD t []).length = cbCount) ∧
    (∀ s : Fin 2, ∀ l : Fin 14, ((JoinRules.getD s []).getD l []).length = cbCount) ∧
    (∀ l : Fin 14, ∀ t : Fin 14,
      (l.val = cbRI ∧ t.val = cbRI) ∨ jrEntry 0 l t = jrEntry 1 l t) ∧
    jrEntry 0 cbRI cbRI = 1 ∧ jrEntry 1 cbRI cbRI = Ω ∧
    (∀ s : Fin 2, ∀ l : Fin 14, ∀ t : Fin 14,
      (s.val = 0 ∧ l.val = cbRI ∧ t.val = cbRI) ∨ jrEntry s l t = 0 ∨ jrEntry s l t = Ω) := by
  decide

/-- C8: in both states, every pair with Control leading and every pair with
Control trailing is a break — through the generated packed lookup, so a join
across a Control code point never occurs. -/
theorem control_always_breaks :
    ∀ s : Fin 2, ∀ c : Fin 14,
      joins s.val cbControl c.val = Ω ∧ joins s.val c.val cbControl = Ω := by
  decide

/-- C9: the sequence U+0915, U+094D, U+094D, U+0924 — categories
IndicConjunctConsonant, IndicConjunctLinker, IndicConjunctLinker,
IndicConjunctConsonant with widths Narrow, ZeroWidth, ZeroWidth, Narrow —
joins all three adjacent pairs from the default state, forming a single
cluster of length 4 whose reported width is 2. -/
theorem devanagari_conjunct_linker_cluster :
    joins 0 (trieValue cbInCBConsonant cwNarrow) (trieValue cbInCBLinker cwZeroWidth) ≠ Ω ∧
    joins 0 (trieValue cbInCBLinker cwZeroWidth) (trieValue cbInCBLinker cwZeroWidth) ≠ Ω ∧
    joins 0 (trieValue cbInCBLinker cwZeroWidth) (trieValue cbInCBConsonant cwNarrow) ≠ Ω ∧
    clusterLen 0 devanagariVals = 4 ∧
    clusterWidth devanagariVals (clusterLen 0 devanagariVals) = 2 := by
  decide

/-- C2 counterexample: for three consecutive RegionalIndicator code points the
forward scan yields the boundary set {0, 2, 3} while the backward scan yields
{0, 1, 3}, so forward and backward scans do not produce the same ordered set
of boundary offsets. -/
theorem fwd_bwd_asymmetric_three_RI :
    fwdBounds [cbRI, cbRI, cbRI] ≠ (bwdBounds [cbRI, cbRI, cbRI]).reverse ∧
    fwdBounds [cbRI, cbRI, cbRI] = [0, 2, 3] ∧
    (bwdBounds [cbRI, cbRI, cbRI]).reverse = [0, 1, 3] := by
  decide

/-- C3 (code bug): `findExisting` can return an element index at which the
haystack does *not* hold the needle.  With haystack `[0x01000000, 0]` and
needle `[1]` the first byte-level occurrence is at byte offset 3; the loop
then searches `h[3:]`, finds the needle at relative offset 0, takes the
`0 % 4 == 0` branch and returns element index 0 — but `haystack[0] ≠ 1`. -/
theorem findExisting_misaligned_hit_wrong :
    findExisting [16777216, 0] [1] = 0 ∧
    [16777216, 0].take 1 ≠ [1] ∧ (16777216 : Nat) ≠ 1 := by
  decide

theorem chunksB_one_cons₂ (x y : Nat) (l : List Nat) :
    chunksB 1 (x :: y :: l) = [x, y] :: chunksB 1 l := by
  rw [chunksB]
  norm_num

theorem chunksB_one_replicate (m : Nat) :
    chunksB 1 (List.replicate (2 * m) 0) = List.replicate m [0, 0] := by
  induction m with
  | zero =>
    rw [Nat.mul_zero]
    rw [chunksB.eq_def]
    rfl
  | succ n ih =>
    have h : 2 * (n + 1) = (2 * n) + 1 + 1 := by omega
    rw [h, List.replicate_succ, List.replicate_succ, chunksB_one_cons₂, ih,
      List.replicate_succ]

theorem foldl_stepChunk_replicate (n : Nat) (st : CState) (ch : List Nat) (o : Nat)
    (h : lookupChunk st.cache ch = some o) :
    (List.replicate n ch).foldl stepChunk st =
      ⟨st.cache, st.compressed, st.offsets ++ List.replicate n o⟩ := by
  induction n generalizing st with
  | zero => simp
  | succ n ih =>
    rw [List.replicate_succ, List.foldl_cons]
    have hstep : stepChunk st ch = ⟨st.cache, st.compressed, st.offsets ++ [o]⟩ := by
      simp [stepChunk, h]
    rw [hstep, ih ⟨st.cache, st.compressed, st.offsets ++ [o]⟩ h]
    simp [List.replicate_succ]

theorem compressStage_badValues :
    compressStage 1 badValues =
      ⟨[([16777216, 0], 0), ([33554432, 3], 2), ([1, 0], 0), ([0, 0], 4)],
       [16777216, 0, 33554432, 3, 0, 0],
       [0, 2, 0, 4] ++ List.replicate 557052 4⟩ := by
  have hchunks : chunksB 1 badValues =
      [[16777216, 0], [33554432, 3], [1, 0], [0, 0]] ++ List.replicate 557052 [0, 0] := by
    rw [badValues, chunksB_one_cons₂, chunksB_one_cons₂, chunksB_one_cons₂,
      show (1114106 : Nat) = 2 * 557053 by norm_num, chunksB_one_replicate,
      show (557053 : Nat) = 557052 + 1 by norm_num, List.replicate_succ]
    rfl
  have hpre : ([[16777216, 0], [33554432, 3], [1, 0], [0, 0]] : List (List Nat)).foldl
      stepChunk ⟨[], [], []⟩ =
      ⟨[([16777216, 0], 0), ([33554432, 3], 2), ([1, 0], 0), ([0, 0], 4)],
       [16777216, 0, 33554432, 3, 0, 0], [0, 2, 0, 4]⟩ := by
    decide
  rw [compressStage, hchunks, List.foldl_append, hpre]
  exact foldl_stepChunk_replicate 557052
    ⟨[([16777216, 0], 0), ([33554432, 3], 2), ([1, 0], 0), ([0, 0], 4)],
     [16777216, 0, 33554432, 3, 0, 0], [0, 2, 0, 4]⟩ [0, 0] 4 (by decide)

theorem foldl_max_replicate (n a : Nat) : (List.replicate n a).foldl max a = a := by
  induction n with
  | zero => rfl
  | succ n ih => rw [List.replicate_succ, List.foldl_cons, Nat.max_self, ih]

theorem buildStagesLoop_nil (u : List Nat) (cum : Nat) :
    buildStagesLoop u [] cum = [⟨u, cum, 2147483647, 0⟩] := rfl

theorem buildStagesLoop_cons (u : List Nat) (s : Nat) (rest : List Nat) (cum : Nat) :
    buildStagesLoop u (s :: rest) cum =
      ⟨(compressStage s u).compressed, cum, 2 ^ s - 1, 0⟩ ::
        buildStagesLoop (compressStage s u).offsets rest (cum + s) := rfl

theorem buildTrie_badValues_stages :
    (buildTrie badValues [1]).Stages =
      [⟨[0, 2, 0, 4] ++ List.replicate 557052 4, 1, 2147483647, 8⟩,
       ⟨[16777216, 0, 33554432, 3, 0, 0], 0, 1, 32⟩] := by
  have hloop : buildStagesLoop badValues [1] 0 =
      [⟨[16777216, 0, 33554432, 3, 0, 0], 0, 1, 0⟩,
       ⟨[0, 2, 0, 4] ++ List.replicate 557052 4, 1, 2147483647, 0⟩] := by
    rw [buildStagesLoop_cons, compressStage_badValues, buildStagesLoop_nil]
    rfl
  have hmax : (([0, 2, 0, 4] ++ List.replicate 557052 4 : List Nat)).foldl max 0 = 4 := by
    rw [List.foldl_append, show ([0, 2, 0, 4] : List Nat).foldl max 0 = 4 from rfl,
      foldl_max_replicate]
  have hmax' : ((0 :: 2 :: 0 :: 4 :: List.replicate 557052 4 : List Nat)).foldl max 0 = 4 := hmax
  show ((buildStagesLoop badValues [1] 0).reverse).map setBits = _
  rw [hloop]
  simp only [List.reverse_cons, List.reverse_nil, List.nil_append, List.cons_append,
    List.map_cons, List.map_nil, setBits]
  rw [hmax']
  rw [show ([16777216, 0, 33554432, 3, 0, 0] : List Nat).foldl max 0 = 33554432 from rfl]
  rw [show bitsFor 4 = 8 from by decide, show bitsFor 33554432 = 32 from by decide]

/-- C1 (code bug): `buildTrie` does not reproduce every 1,114,112-entry dense
array.  On `badValues` with per-stage shifts `[1]`, chaining
`offset = stage.Values[offset + ((cp >> stage.Shift) & stage.Mask)]` across
the stages in root-to-leaf order at code point 4 yields 16777216 although the
array holds 1 there — the bogus offset comes from `findExisting`'s misaligned
byte match. -/
theorem buildTrie_roundtrip_fails_on_badValues :
    badValues.length = 1114112 ∧ badValues.getD 4 0 = 1 ∧
    trieLookup (buildTrie badValues [1]) 4 = 16777216 ∧ (16777216 : Nat) ≠ 1 := by
  refine ⟨?_, rfl, ?_, by decide⟩
  · rw [badValues, List.length_cons, List.length_cons, List.length_cons, List.length_cons,
      List.length_cons, List.length_cons, List.length_replicate]
  · rw [trieLookup, buildTrie_badValues_stages]
    simp only [List.foldl_cons, List.foldl_nil]
    have h1 : (0 + ((4 >>> 1) &&& 2147483647)) = 2 := by decide
    rw [h1, List.getD_append _ _ _ _ (by norm_num)]
    rfl

theorem genShifts_length (delta lo k i : Nat) : (genShifts delta lo k i).length = k := by
  induction k generalizing i with
  | zero => rfl
  | succ n ih => simp [genShifts, ih]

theorem genShifts_mem_bounds (lo hi k i : Nat) (hlohi : lo ≤ hi) :
    ∀ x ∈ genShifts (hi - lo + 1) lo k i, lo ≤ x ∧ x ≤ hi := by
  induction k generalizing i with
  | zero => simp [genShifts]
  | succ n ih =>
    intro x hx
    rw [genShifts] at hx
    rcases List.mem_cons.mp hx with h | h
    · subst h
      have hmod : i % (hi - lo + 1) < hi - lo + 1 := Nat.mod_lt _ (by omega)
      omega
    · exact ih _ x h

theorem genShifts_surjective (lo hi : Nat) (hlohi : lo ≤ hi) (sh : List Nat) :
    (∀ x ∈ sh, lo ≤ x ∧ x ≤ hi) →
    ∃ i < (hi - lo + 1) ^ sh.length, genShifts (hi - lo + 1) lo sh.length i = sh := by
  induction sh with
  | nil => exact fun _ => ⟨0, Nat.pos_pow_of_pos _ (by omega), rfl⟩
  | cons x rest ih =>
    intro hmem
    obtain ⟨i, hi2, hgen⟩ := ih (fun y hy => hmem y (List.mem_cons_of_mem x hy))
    have hx := hmem x (List.mem_cons_self x rest)
    set delta := hi - lo + 1 with hdelta
    refine ⟨(x - lo) + delta * i, ?_, ?_⟩
    · have h1 : x - lo < delta := by omega
      have h2 : delta * i.succ ≤ delta * delta ^ rest.length :=
        Nat.mul_le_mul_left delta (Nat.succ_le_of_lt hi2)
      have h3 : delta * i.succ = delta * i + delta := Nat.mul_succ delta i
      calc x - lo + delta * i < delta + delta * i := by omega
        _ ≤ delta * delta ^ rest.length := by omega
        _ = delta ^ (x :: rest).length := by
            rw [List.length_cons, pow_succ, Nat.mul_comm]
    · rw [List.length_cons, genShifts]
      have hmod : (x - lo + delta * i) % delta = x - lo := by
        rw [Nat.add_mul_mod_self_left, Nat.mod_eq_of_lt (by omega)]
      have hdiv : (x - lo + delta * i) / delta = i := by
        rw [Nat.add_mul_div_left _ _ (by omega : 0 < delta),
          Nat.div_eq_of_lt (by omega), Nat.zero_add]
      rw [hmod, hdiv, hgen]
      congr 1
      omega

/-- The min-fold of `buildBestTrie`: the result is the initial value or one of
the candidates, and its `TotalSize` is a lower bound of all of them. -/
theorem foldl_min_spec (f : Nat → GoTrie) (l : List Nat) (init : GoTrie) :
    let r := l.foldl (fun best i => if best.TotalSize > (f i).TotalSize then f i else best) init
    (r = init ∨ ∃ i ∈ l, r = f i) ∧ r.TotalSize ≤ init.TotalSize ∧
      ∀ i ∈ l, r.TotalSize ≤ (f i).TotalSize := by
  induction l generalizing init with
  | nil => exact ⟨Or.inl rfl, Nat.le_refl _, by simp⟩
  | cons x xs ih =>
    simp only [List.foldl_cons]
    obtain ⟨hsrc, hle, hall⟩ := ih (if init.TotalSize > (f x).TotalSize then f x else init)
    have hle' : (if init.TotalSize > (f x).TotalSize then f x else init).TotalSize ≤
        init.TotalSize := by
      split <;> omega
    have hlex : (if init.TotalSize > (f x).TotalSize then f x else init).TotalSize ≤
        (f x).TotalSize := by
      split <;> omega
    refine ⟨?_, Nat.le_trans hle hle', ?_⟩
    · rcases hsrc with h | ⟨i, hi2, hi3⟩
      · rw [h]
        split
        · exact Or.inr ⟨x, List.mem_cons_self x xs, rfl⟩
        · exact Or.inl rfl
      · exact Or.inr ⟨i, List.mem_cons_of_mem x hi2, hi3⟩
    · intro i hi2
      rcases List.mem_cons.mp hi2 with h | h
      · subst h
        exact Nat.le_trans hle hlex
      · exact hall i h

/-! ### Size bounds for `buildTrie`, needed to rule out the `math.MaxInt`
sentinel of `buildBestTrie` ever surviving the reduction. -/

theorem chunksB_sum_aux (shift : Nat) :
    ∀ (n : Nat) (l : List Nat), l.length ≤ n →
      ((chunksB shift l).map List.length).sum = l.length ∧
      (chunksB shift l).length ≤ l.length := by
  intro n
  induction n with
  | zero =>
    intro l hl
    have : l = [] := List.eq_nil_of_length_eq_zero (by omega)
    subst this
    rw [chunksB]
    simp
  | succ n ih =>
    intro l hl
    match l with
    | [] =>
      rw [chunksB]
      simp
    | x :: xs =>
      rw [chunksB]
      have hpow : 0 < 2 ^ shift := Nat.pos_pow_of_pos _ (by omega)
      have hd : ((x :: xs).drop (2 ^ shift)).length ≤ n := by
        rw [List.length_drop]
        simp only [List.length_cons] at hl ⊢
        omega
      obtain ⟨ihs, ihc⟩ := ih _ hd
      constructor
      · rw [List.map_cons, List.sum_cons, ihs, List.length_take, List.length_drop]
        simp only [List.length_cons]
        omega
      · have hdl := List.length_drop (2 ^ shift) (x :: xs)
        rw [List.length_cons]
        rw [hdl] at ihc
        simp only [List.length_cons] at ihc ⊢
        omega

theorem stepChunk_growth (st : CState) (c : List Nat) :
    (stepChunk st c).compressed.length ≤ st.compressed.length + c.length ∧
    (stepChunk st c).offsets.length = st.offsets.length + 1 := by
  simp only [stepChunk]
  cases h : lookupChunk st.cache c with
  | some o => simp
  | none =>
    simp only
    split
    · constructor <;> simp
    · constructor
      · simp only [List.length_append, List.length_drop]
        omega
      · simp

theorem foldl_stepChunk_growth (chunks : List (List Nat)) (st : CState) :
    (chunks.foldl stepChunk st).compressed.length ≤
      st.compressed.length + (chunks.map List.length).sum ∧
    (chunks.foldl stepChunk st).offsets.length = st.offsets.length + chunks.length := by
  induction chunks generalizing st with
  | nil => simp
  | cons c cs ih =>
    simp only [List.foldl_cons, List.map_cons, List.sum_cons, List.length_cons]
    obtain ⟨h1, h2⟩ := ih (stepChunk st c)
    obtain ⟨g1, g2⟩ := stepChunk_growth st c
    exact ⟨by omega, by omega⟩

theorem compressStage_lengths (shift : Nat) (l : List Nat) :
    (compressStage shift l).compressed.length ≤ l.length ∧
    (compressStage shift l).offsets.length ≤ l.length := by
  obtain ⟨hsum, hcount⟩ := chunksB_sum_aux shift l.length l (Nat.le_refl _)
  obtain ⟨h1, h2⟩ := foldl_stepChunk_growth (chunksB shift l) ⟨[], [], []⟩
  rw [compressStage]
  constructor
  · calc ((chunksB shift l).foldl stepChunk ⟨[], [], []⟩).compressed.length ≤
        (0 : Nat) + ((chunksB shift l).map List.length).sum := h1
      _ = l.length := by rw [Nat.zero_add, hsum]
  · calc ((chunksB shift l).foldl stepChunk ⟨[], [], []⟩).offsets.length =
        (0 : Nat) + (chunksB shift l).length := h2
      _ ≤ l.length := by omega

theorem buildStagesLoop_values_le (shifts : List Nat) :
    ∀ (u : List Nat) (cum : Nat) (s : GoStage),
      s ∈ buildStagesLoop u shifts cum → s.Values.length ≤ u.length := by
  induction shifts with
  | nil =>
    intro u cum s hs
    rw [buildStagesLoop_nil, List.mem_singleton] at hs
    subst hs
    exact Nat.le_refl _
  | cons sh rest ih =>
    intro u cum s hs
    rw [buildStagesLoop_cons] at hs
    rcases List.mem_cons.mp hs with h | h
    · subst h
      exact (compressStage_lengths sh u).1
    · exact Nat.le_trans (ih _ _ s h) (compressStage_lengths sh u).2

theorem buildStagesLoop_length (shifts : List Nat) :
    ∀ (u : List Nat) (cum : Nat), (buildStagesLoop u shifts cum).length = shifts.length + 1 := by
  induction shifts with
  | nil => intro u cum; rw [buildStagesLoop_nil]; rfl
  | cons sh rest ih =>
    intro u cum
    rw [buildStagesLoop_cons, List.length_cons, ih, List.length_cons]

theorem bitsFor_div8_le (m : Nat) : bitsFor m / 8 ≤ 4 := by
  unfold bitsFor
  split
  · norm_num
  · split <;> norm_num

theorem sum_map_size_le (l : List GoStage) (c : Nat)
    (h : ∀ s ∈ l, (s.Bits / 8) * s.Values.length ≤ c) :
    (l.map (fun s => (s.Bits / 8) * s.Values.length)).sum ≤ l.length * c := by
  induction l with
  | nil => simp
  | cons s rest ih =>
    simp only [List.map_cons, List.sum_cons, List.length_cons]
    have h1 := h s (List.mem_cons_self s rest)
    have h2 := ih (fun t ht => h t (List.mem_cons_of_mem s ht))
    calc (s.Bits / 8) * s.Values.length +
          (rest.map (fun s => (s.Bits / 8) * s.Values.length)).sum ≤
        c + rest.length * c := Nat.add_le_add h1 h2
      _ = (rest.length + 1) * c := by ring

theorem buildTrie_TotalSize_le (u : List Nat) (shifts : List Nat) :
    (buildTrie u shifts).TotalSize ≤ (shifts.length + 1) * (4 * u.length) := by
  have hmem : ∀ s ∈ ((buildStagesLoop u shifts 0).reverse).map setBits,
      (s.Bits / 8) * s.Values.length ≤ 4 * u.length := by
    intro s hs
    obtain ⟨s0, hs0, rfl⟩ := List.mem_map.mp hs
    have hv : s0.Values.length ≤ u.length :=
      buildStagesLoop_values_le shifts u 0 s0 (List.mem_reverse.mp hs0)
    have hb : (setBits s0).Bits / 8 ≤ 4 := bitsFor_div8_le _
    have hval : (setBits s0).Values = s0.Values := rfl
    calc ((setBits s0).Bits / 8) * (setBits s0).Values.length ≤
        4 * (setBits s0).Values.length := Nat.mul_le_mul_right _ hb
      _ = 4 * s0.Values.length := by rw [hval]
      _ ≤ 4 * u.length := Nat.mul_le_mul_left _ hv
  have hlen : (((buildStagesLoop u shifts 0).reverse).map setBits).length = shifts.length + 1 := by
    rw [List.length_map, List.length_reverse, buildStagesLoop_length]
  calc (buildTrie u shifts).TotalSize ≤
      (((buildStagesLoop u shifts 0).reverse).map setBits).length * (4 * u.length) :=
        sum_map_size_le _ _ hmem
    _ = (shifts.length + 1) * (4 * u.length) := by rw [hlen]

/-- C7: for `minShift ≤ maxShift`, `stages ≥ 1` and any `uint32` array small
enough that no candidate's byte size reaches `math.MaxInt`, `buildBestTrie`
returns a trie whose `TotalSize` is attained by `buildTrie` on some
`(stages-1)`-tuple of shifts drawn from `[minShift, maxShift]` and is a lower
bound of `buildTrie`'s `TotalSize` on every such tuple — i.e. it is the
minimum over the searched shift space. -/
theorem buildBestTrie_minimizes (v : List Nat) (lo hi st : Nat)
    (h1 : lo ≤ hi) (h2 : 1 ≤ st) (h3 : 4 * st * v.length < maxIntGo) :
    (∃ sh : List Nat, sh.length = st - 1 ∧ (∀ x ∈ sh, lo ≤ x ∧ x ≤ hi) ∧
        (buildBestTrie v lo hi st).TotalSize = (buildTrie v sh).TotalSize) ∧
    (∀ sh : List Nat, sh.length = st - 1 → (∀ x ∈ sh, lo ≤ x ∧ x ≤ hi) →
        (buildBestTrie v lo hi st).TotalSize ≤ (buildTrie v sh).TotalSize) := by
  set delta := hi - lo + 1 with hdelta
  set iters := delta ^ (st - 1) with hiters
  set f : Nat → GoTrie := fun i => buildTrie v (genShifts delta lo (st - 1) i) with hf
  have hbest : buildBestTrie v lo hi st =
      (List.range iters).foldl
        (fun best i => if best.TotalSize > (f i).TotalSize then f i else best)
        ⟨[], maxIntGo⟩ := rfl
  obtain ⟨hsrc, hle, hall⟩ := foldl_min_spec f (List.range iters) ⟨[], maxIntGo⟩
  have hcand : ∀ i : Nat, (f i).TotalSize < maxIntGo := by
    intro i
    have := buildTrie_TotalSize_le v (genShifts delta lo (st - 1) i)
    rw [genShifts_length] at this
    have hst : st - 1 + 1 = st := by omega
    rw [hst] at this
    have : (f i).TotalSize ≤ 4 * st * v.length := by
      rw [hf]
      calc (buildTrie v (genShifts delta lo (st - 1) i)).TotalSize ≤
          st * (4 * v.length) := this
        _ = 4 * st * v.length := by ring
    omega
  have hpos : 0 < iters := Nat.pos_pow_of_pos _ (by omega)
  have hnotinit : buildBestTrie v lo hi st ≠ (⟨[], maxIntGo⟩ : GoTrie) := by
    intro hcontra
    have h0 : (0 : Nat) ∈ List.range iters := List.mem_range.mpr hpos
    have := hall 0 h0
    rw [← hbest, hcontra] at this
    exact absurd this (Nat.not_le_of_lt (hcand 0))
  constructor
  · rcases hsrc with h | ⟨i, hi2, hi3⟩
    · exact absurd (hbest.trans h) hnotinit
    · refine ⟨genShifts delta lo (st - 1) i, genShifts_length _ _ _ _,
        genShifts_mem_bounds lo hi _ i h1, ?_⟩
      rw [hbest, hi3]
  · intro sh hlen hbounds
    obtain ⟨i, hi2, hgen⟩ := genShifts_surjective lo hi h1 sh hbounds
    rw [hlen] at hgen hi2
    have := hall i (List.mem_range.mpr hi2)
    rw [← hbest] at this
    have heq : f i = buildTrie v sh := by
      rw [← hdelta] at hgen
      show buildTrie v (genShifts delta lo (st - 1) i) = buildTrie v sh
      rw [hgen]
    rw [heq] at this
    exact this

/-- C10: the packed rule table is total for byte-sized arguments: it has
exactly two states of exactly 16 packed lead entries, the masked lead always
indexes within a row, and for the lead slots 14 and 15 — outside the
14-category enumeration — the packed entry is zero, so `ucdGraphemeJoins`
returns verdict 0 (join, destination state default) for every trail. -/
theorem rules_table_total_and_zero_padded :
    sJoinRules.length = 2 ∧
    (∀ state : Fin 2, (sJoinRules.getD state.val []).length = 16) ∧
    (∀ lead : Nat, lead &&& 15 < 16) ∧
    (∀ state lead trail : Nat, state < 2 → 14 ≤ lead &&& 15 →
      ucdGraphemeJoins sJoinRules state lead trail = 0) := by
  refine ⟨by decide, by decide, ?_, ?_⟩
  · intro lead
    have hle : lead &&& 15 ≤ 15 := Nat.and_le_right
    omega
  · intro state lead trail hstate hge
    have hle : lead &&& 15 ≤ 15 := Nat.and_le_right
    have hl : lead &&& 15 = 14 ∨ lead &&& 15 = 15 := by omega
    have hs : state = 0 ∨ state = 1 := by omega
    have e014 : (sJoinRules.getD 0 []).getD 14 0 = 0 := by decide
    have e015 : (sJoinRules.getD 0 []).getD 15 0 = 0 := by decide
    have e114 : (sJoinRules.getD 1 []).getD 14 0 = 0 := by decide
    have e115 : (sJoinRules.getD 1 []).getD 15 0 = 0 := by decide
    simp only [ucdGraphemeJoins]
    rcases hs with rfl | rfl <;> rcases hl with h | h <;> rw [h]
    · rw [e014, Nat.zero_shiftRight, Nat.zero_and]
    · rw [e015, Nat.zero_shiftRight, Nat.zero_and]
    · rw [e114, Nat.zero_shiftRight, Nat.zero_and]
    · rw [e115, Nat.zero_shiftRight, Nat.zero_and]

/-- Witness: `rules_table_total_and_zero_padded`'s hypotheses hold at
state 0, lead 14, trail 200. -/
theorem rules_table_total_and_zero_padded_witness :
    ((0 : Nat) < 2 ∧ 14 ≤ (14 : Nat) &&& 15) ∧ ucdGraphemeJoins sJoinRules 0 14 200 = 0 :=
  ⟨⟨by decide, by decide⟩,
   rules_table_total_and_zero_padded.2.2.2 0 14 200 (by decide) (by decide)⟩

/-- Witness: the hypotheses of `buildBestTrie_minimizes` hold at the concrete
input `v = [0, 1]`, `minShift = 1`, `maxShift = 2`, `stages = 2`. -/
theorem buildBestTrie_minimizes_witness :
    (1 ≤ 2 ∧ 1 ≤ 2 ∧ 4 * 2 * ([0, 1] : List Nat).length < maxIntGo) ∧
    ((∃ sh : List Nat, sh.length = 2 - 1 ∧ (∀ x ∈ sh, 1 ≤ x ∧ x ≤ 2) ∧
        (buildBestTrie [0, 1] 1 2 2).TotalSize = (buildTrie [0, 1] sh).TotalSize) ∧
     (∀ sh : List Nat, sh.length = 2 - 1 → (∀ x ∈ sh, 1 ≤ x ∧ x ≤ 2) →
        (buildBestTrie [0, 1] 1 2 2).TotalSize ≤ (buildTrie [0, 1] sh).TotalSize)) :=
  ⟨⟨by norm_num, by norm_num, by norm_num [maxIntGo]⟩,
   buildBestTrie_minimizes [0, 1] 1 2 2 (by norm_num) (by norm_num)
     (by norm_num [maxIntGo])⟩

set_option maxHeartbeats 2000000 in
theorem mapGCB_none_iff (s : String) : mapGCB s = none ↔ gcbValid s = false := by
  unfold mapGCB gcbValid
  split_ifs with h1 h2 h3 h4 h5 h6 h7 h8 h9 h10 h11
  · subst h1; decide
  · rcases h2 with rfl | rfl | rfl <;> decide
  · rcases h3 with rfl | rfl <;> decide
  · subst h4; decide
  · subst h5; decide
  · subst h6; decide
  · subst h7; decide
  · subst h8; decide
  · subst h9; decide
  · subst h10; decide
  · subst h11; decide
  · push_neg at h2 h3
    obtain ⟨h2a, h2b, h2c⟩ := h2
    obtain ⟨h3a, h3b⟩ := h3
    simp [h1, h2a, h2b, h2c, h3a, h3b, h4, h5, h6, h7, h8, h9, h10, h11]

set_option maxHeartbeats 1000000 in
theorem mapEA_none_iff (s : String) : mapEA s = none ↔ eaValid s = false := by
  unfold mapEA eaValid
  split_ifs with h1 h2 h3
  · rcases h1 with rfl | rfl | rfl <;> decide
  · rcases h2 with rfl | rfl <;> decide
  · subst h3; decide
  · push_neg at h1 h2
    obtain ⟨h1a, h1b, h1c⟩ := h1
    obtain ⟨h2a, h2b⟩ := h2
    simp [h1a, h1b, h1c, h2a, h2b, h3]

theorem epStep_isErr (gcb ep : String) (fl : Nat × Nat) (cb0 : Nat) :
    isErr (epStep gcb ep fl cb0) = (ep == "Y" && !(cb0 == cbOther)) := by
  unfold epStep
  by_cases hep : ep = "Y"
  · by_cases hcb : cb0 = cbOther
    · simp [hep, hcb, isErr]
    · simp [hep, hcb, isErr]
  · simp [hep, isErr]

theorem epStep_ok (gcb ep : String) (fl : Nat × Nat) (cb0 cb1 : Nat)
    (h : epStep gcb ep fl cb0 = .ok cb1) :
    cb1 = if ep = "Y" then cbExtPic else cb0 := by
  unfold epStep at h
  split_ifs at h with h1 h2 <;> simp_all

theorem incbStep_isErr (gcb incb : String) (fl : Nat × Nat) (cb1 : Nat) :
    isErr (incbStep gcb incb fl cb1) =
      (!(incbValid incb) || (incb == "Linker" && !(cb1 == cbExtend)) ||
       (incb == "Consonant" && !(cb1 == cbOther))) := by
  unfold incbStep incbValid
  split_ifs with h1 h2 h3 h4 h5
  · rcases h1 with rfl | rfl <;> simp [isErr]
  · subst h2
    simp [isErr, h3]
  · subst h2
    push_neg at h3
    simp [isErr, h3]
  · subst h4
    push_neg at h1
    simp [isErr, h5]
  · subst h4
    push_neg at h1 h5
    simp [isErr, h5]
  · push_neg at h1
    simp [isErr, h1.1, h1.2, h2, h4]

theorem eaStep_isErr (gc ea : String) (fl : Nat × Nat) (cb2 : Nat) :
    isErr (eaStep gc ea fl cb2) = !(eaValid ea) := by
  unfold eaStep
  cases hea : mapEA ea with
  | none => simp [isErr, (mapEA_none_iff ea).mp hea]
  | some w =>
    have ht : eaValid ea = true := by
      rcases Bool.eq_false_or_eq_true (eaValid ea) with h | h
      · exact h
      · exact absurd hea (by simp [(mapEA_none_iff ea).mpr h])
    simp [isErr, ht]

theorem beq_some_some (a b : Nat) : ((some a == some b) : Bool) = (a == b) := by
  by_cases h : a = b <;> simp [h]

/-- The per-record body errors exactly on the records the claim characterizes
as bad. -/
theorem processChar_error_iff (g : UcdGroup) (c : UcdChar) :
    isErr (processChar g c) = claimBadChar g c := by
  simp only [processChar, claimBadChar]
  cases hg : mapGCB (coalesce c.gcb g.gcb) with
  | none =>
    have hv := (mapGCB_none_iff _).mp hg
    simp [isErr, hv]
  | some cb0 =>
    have hvt : gcbValid (coalesce c.gcb g.gcb) = true := by
      rcases Bool.eq_false_or_eq_true (gcbValid (coalesce c.gcb g.gcb)) with h | h
      · exact h
      · exact absurd hg (by simp [(mapGCB_none_iff _).mpr h])
    simp only [hvt, Bool.not_true, Bool.false_or, hg, Option.getD_some, beq_some_some]
    cases hep : epStep (coalesce c.gcb g.gcb) (coalesce c.extPict g.extPict)
        (charRange c) cb0 with
    | error e =>
      have hepE := epStep_isErr (coalesce c.gcb g.gcb) (coalesce c.extPict g.extPict)
        (charRange c) cb0
      rw [hep] at hepE
      simp only [isErr] at hepE ⊢
      rw [← hepE]
      simp
    | ok cb1 =>
      have hepE := epStep_isErr (coalesce c.gcb g.gcb) (coalesce c.extPict g.extPict)
        (charRange c) cb0
      rw [hep] at hepE
      simp only [isErr] at hepE
      have hcb1 := epStep_ok _ _ _ _ _ hep
      rw [show (if coalesce c.extPict g.extPict = "Y" then cbExtPic else cb0) = cb1 from
        hcb1.symm, ← hepE]
      simp only [Bool.or_false, Bool.false_or]
      cases hincb : incbStep (coalesce c.gcb g.gcb) (coalesce c.incb g.incb)
          (charRange c) cb1 with
      | error e =>
        have hinE := incbStep_isErr (coalesce c.gcb g.gcb) (coalesce c.incb g.incb)
          (charRange c) cb1
        rw [hincb] at hinE
        simp only [isErr] at hinE ⊢
        have h' := hinE.symm
        simp only [Bool.or_eq_true] at h'
        symm
        simp only [Bool.or_eq_true]
        tauto
      | ok cb2 =>
        have hinE := incbStep_isErr (coalesce c.gcb g.gcb) (coalesce c.incb g.incb)
          (charRange c) cb1
        rw [hincb] at hinE
        simp only [isErr] at hinE
        have h' := hinE.symm
        simp only [Bool.or_eq_false_iff] at h'
        obtain ⟨⟨ha, hb⟩, hc⟩ := h'
        rw [eaStep_isErr, ha, hb, hc]
        simp

theorem processChars_error_iff (g : UcdGroup) (cs : List UcdChar) :
    ∀ values, isErr (processChars g values cs) = cs.any (fun c => claimBadChar g c) := by
  induction cs with
  | nil => intro values; rfl
  | cons c rest ih =>
    intro values
    rw [processChars]
    cases hc : processChar g c with
    | error e =>
      have := processChar_error_iff g c
      rw [hc] at this
      simp only [isErr] at this ⊢
      rw [List.any_cons, ← this]
      simp
    | ok v =>
      have := processChar_error_iff g c
      rw [hc] at this
      simp only [isErr] at this
      rw [List.any_cons, ← this, Bool.false_or]
      exact ih _

theorem processGroups_error_iff (gs : List UcdGroup) :
    ∀ values, isErr (processGroups values gs) =
      gs.any (fun g => g.chars.any (fun c => claimBadChar g c)) := by
  induction gs with
  | nil => intro values; rfl
  | cons g rest ih =>
    intro values
    rw [processGroups]
    cases hg : processChars g values g.chars with
    | error e =>
      have := processChars_error_iff g g.chars values
      rw [hg] at this
      simp only [isErr] at this ⊢
      rw [List.any_cons, ← this]
      simp
    | ok values' =>
      have := processChars_error_iff g g.chars values
      rw [hg] at this
      simp only [isErr] at this
      rw [List.any_cons, ← this, Bool.false_or]
      exact ih _

/-- C4: `extractValuesFromUCD` returns an error if and only if some record's
coalesced attributes are bad in the claim's sense — a GCB outside
{XX, CR, LF, CN, EX, SM, PP, ZWJ, RI, L, V, T, LV, LVT}, an InCB outside
{None, Extend, Linker, Consonant}, an East_Asian_Width outside
{N, Na, H, F, W, A}, `ExtPict="Y"` with a GCB-derived category other than
Other, `InCB=Linker` with a category other than Extend, or `InCB=Consonant`
with a category other than Other; otherwise it returns the dense array with no
error. -/
theorem extractValuesFromUCD_error_characterization (ucd : UCDData) :
    isErr (extractValuesFromUCD ucd) = true ↔
      ∃ g ∈ ucd.groups, ∃ c ∈ g.chars, claimBadChar g c = true := by
  have hiff : isErr (extractValuesFromUCD ucd) =
      ucd.groups.any (fun g => g.chars.any (fun c => claimBadChar g c)) := by
    rw [extractValuesFromUCD]
    cases hg : processGroups (List.replicate 1114112 (trieValue cbOther cwNarrow))
        ucd.groups with
    | error e =>
      have := processGroups_error_iff ucd.groups
        (List.replicate 1114112 (trieValue cbOther cwNarrow))
      rw [hg] at this
      simp only [isErr] at this ⊢
      exact this
    | ok values =>
      have := processGroups_error_iff ucd.groups
        (List.replicate 1114112 (trieValue cbOther cwNarrow))
      rw [hg] at this
      simp only [isErr] at this ⊢
      exact this
  rw [hiff, List.any_eq_true]
  constructor
  · rintro ⟨g, hg, hany⟩
    rw [List.any_eq_true] at hany
    exact ⟨g, hg, hany⟩
  · rintro ⟨g, hg, c, hc, hbad⟩
    exact ⟨g, hg, List.any_eq_true.mpr ⟨c, hc, hbad⟩⟩

/-- Witness: the unrecognized-GCB sample makes the error side of
`extractValuesFromUCD_error_characterization` fire. -/
theorem extractValuesFromUCD_error_characterization_witness :
    isErr (extractValuesFromUCD ucdBadSample) = true :=
  (extractValuesFromUCD_error_characterization ucdBadSample).mpr
    ⟨badGcbGroup, by simp [ucdBadSample], badGcbChar, by simp [badGcbGroup], by decide⟩

set_option maxHeartbeats 2000000 in
theorem mapGCB_le (s : String) (k : Nat) (h : mapGCB s = some k) : k ≤ 13 := by
  unfold mapGCB at h
  split_ifs at h <;> first
    | (injection h with h; rw [← h]; decide)
    | exact Option.noConfusion h

theorem incbStep_ok_le (gcb incb : String) (fl : Nat × Nat) (cb1 cb2 : Nat)
    (h : incbStep gcb incb fl cb1 = .ok cb2) (hcb1 : cb1 ≤ 13) : cb2 ≤ 13 := by
  unfold incbStep at h
  split_ifs at h <;> first
    | (injection h with h; rw [← h]; first | exact hcb1 | decide)
    | exact Except.noConfusion h

/-- C6: for every record processed without error whose coalesced
General_Category starts with "M" or equals "Cf", the classification value
written for that record has width ZeroWidth — the East_Asian_Width-derived
width (including "W" and "F") is overridden unconditionally. -/
theorem gc_mark_or_cf_forces_zero_width (g : UcdGroup) (c : UcdChar) (v : Nat)
    (h : processChar g c = .ok v)
    (hgc : strStarts (coalesce c.gc g.gc) "M" = true ∨ coalesce c.gc g.gc = "Cf") :
    ucdToCharacterWidth v = cwZeroWidth := by
  simp only [processChar] at h
  cases hg : mapGCB (coalesce c.gcb g.gcb) with
  | none => rw [hg] at h; exact Except.noConfusion h
  | some cb0 =>
    rw [hg] at h
    dsimp only at h
    cases hep : epStep (coalesce c.gcb g.gcb) (coalesce c.extPict g.extPict)
        (charRange c) cb0 with
    | error e => rw [hep] at h; exact Except.noConfusion h
    | ok cb1 =>
      rw [hep] at h
      dsimp only at h
      cases hincb : incbStep (coalesce c.gcb g.gcb) (coalesce c.incb g.incb)
          (charRange c) cb1 with
      | error e => rw [hincb] at h; exact Except.noConfusion h
      | ok cb2 =>
        rw [hincb] at h
        dsimp only at h
        have hcb0 : cb0 ≤ 13 := mapGCB_le _ _ hg
        have hcb1le : cb1 ≤ 13 := by
          have := epStep_ok _ _ _ _ _ hep
          rw [this]
          split
          · decide
          · exact hcb0
        have hcb2 : cb2 ≤ 13 := incbStep_ok_le _ _ _ _ _ hincb hcb1le
        simp only [eaStep] at h
        cases hea : mapEA (coalesce c.ea g.ea) with
        | none => rw [hea] at h; exact Except.noConfusion h
        | some w =>
          rw [hea] at h
          dsimp only at h
          split at h
          · injection h with h
            rw [← h]
            show trieValue cb2 cwZeroWidth >>> 6 = cwZeroWidth
            rw [trieValue]
            rw [show (cwZeroWidth <<< 6 : Nat) = 0 from rfl, Nat.or_zero,
              Nat.shiftRight_eq_div_pow]
            exact Nat.div_eq_of_lt (by omega)
          · rename_i hfalse
            exfalso
            apply hfalse
            rcases hgc with h1 | h1 <;> simp [h1]

/-- Witness: `gc_mark_or_cf_forces_zero_width`'s hypotheses hold at the
Mn/ea=W record; the processed value has width ZeroWidth. -/
theorem gc_mark_or_cf_forces_zero_width_witness :
    processChar markWideGroup markWideChar = .ok (trieValue cbExtend cwZeroWidth) ∧
    ucdToCharacterWidth (trieValue cbExtend cwZeroWidth) = cwZeroWidth :=
  ⟨rfl,
   gc_mark_or_cf_forces_zero_width markWideGroup markWideChar _ rfl
     (Or.inl (by decide))⟩


theorem joins0_mem (l t : Nat) (hl : l &&& 15 ≠ 3) :
    joins 0 l t = 0 ∨ joins 0 l t = Ω := by
  have h16l : l &&& 15 < 16 := by
    have := Nat.and_le_right (n := l) (m := 15)
    omega
  have h16t : t &&& 15 < 16 := by
    have := Nat.and_le_right (n := t) (m := 15)
    omega
  have key : ∀ a : Fin 16, ∀ b : Fin 16, a.val ≠ 3 →
      ((sJoinRules.getD 0 []).getD a.val 0 >>> (b.val * 2)) &&& 3 = 0 ∨
      ((sJoinRules.getD 0 []).getD a.val 0 >>> (b.val * 2)) &&& 3 = 3 := by decide
  exact key ⟨l &&& 15, h16l⟩ ⟨t &&& 15, h16t⟩ hl

theorem fwdBreaks_eq_fwdM (rest : List Nat) :
    ∀ pos c, c &&& 15 ≠ 3 → (∀ v ∈ rest, v &&& 15 ≠ 3) →
      fwdBreaks pos 0 c rest = fwdM goBr pos c rest := by
  induction rest with
  | nil => intro pos c hc hrest; rfl
  | cons t r ih =>
    intro pos c hc hrest
    have ht : t &&& 15 ≠ 3 := hrest t (List.mem_cons_self t r)
    have hr : ∀ v ∈ r, v &&& 15 ≠ 3 := fun v hv => hrest v (List.mem_cons_of_mem t hv)
    rw [fwdBreaks, fwdM]
    simp only [goBr]
    rcases joins0_mem c t hc with h0 | hΩ
    · rw [if_neg (show ¬(joins 0 c t = Ω) by rw [h0]; decide),
        if_neg (show ¬((joins 0 c t == Ω) = true) by rw [h0]; decide), h0]
      exact ih (pos + 1) t ht hr
    · rw [if_pos hΩ, if_pos (show (joins 0 c t == Ω) = true by rw [hΩ]; decide)]
      rw [ih (pos + 1) t ht hr]

theorem bwdBreaks_eq_bwdM (rest : List Nat) :
    ∀ pos c, c &&& 15 ≠ 3 → (∀ v ∈ rest, v &&& 15 ≠ 3) →
      bwdBreaks pos 0 c rest = bwdM goBr pos c rest := by
  induction rest with
  | nil => intro pos c hc hrest; rfl
  | cons l r ih =>
    intro pos c hc hrest
    have hl : l &&& 15 ≠ 3 := hrest l (List.mem_cons_self l r)
    have hr : ∀ v ∈ r, v &&& 15 ≠ 3 := fun v hv => hrest v (List.mem_cons_of_mem l hv)
    rw [bwdBreaks, bwdM]
    simp only [goBr]
    rcases joins0_mem l c hl with h0 | hΩ
    · rw [if_neg (show ¬(joins 0 l c = Ω) by rw [h0]; decide),
        if_neg (show ¬((joins 0 l c == Ω) = true) by rw [h0]; decide), h0]
      exact ih (pos - 1) l hl hr
    · rw [if_pos hΩ, if_pos (show (joins 0 l c == Ω) = true by rw [hΩ]; decide)]
      rw [ih (pos - 1) l hl hr]

theorem filter_map_comm' (f : Nat → Nat) (p : Nat → Bool) (l : List Nat) :
    (l.map f).filter p = (l.filter (fun x => p (f x))).map f := by
  induction l with
  | nil => rfl
  | cons x xs ih =>
    simp only [List.map_cons, List.filter_cons]
    by_cases h : p (f x) = true
    · simp [h, ih]
    · simp [h, ih]


theorem fwdM_eq_filter (br : Nat → Nat → Bool) (ts : List Nat) :
    ∀ (c pos : Nat),
      fwdM br pos c ts =
        (((List.range ts.length).filter
            (fun i => br ((c :: ts).getD i 0) (ts.getD i 0))).map (fun i => pos + 1 + i)) ++
          [pos + ts.length + 1] := by
  induction ts with
  | nil => intro c pos; simp [fwdM]
  | cons t r ih =>
    intro c pos
    rw [fwdM, List.length_cons, List.range_succ_eq_map, List.filter_cons]
    simp only [List.getD_cons_zero]
    rw [filter_map_comm' Nat.succ _ (List.range r.length)]
    have hpred : (List.range r.length).filter
        (fun x => br ((c :: t :: r).getD (Nat.succ x) 0) ((t :: r).getD (Nat.succ x) 0)) =
        (List.range r.length).filter (fun i => br ((t :: r).getD i 0) (r.getD i 0)) := by
      apply List.filter_congr
      intro a ha
      rw [List.getD_cons_succ, List.getD_cons_succ]
    rw [hpred]
    have hmap : ((((List.range r.length).filter
          (fun i => br ((t :: r).getD i 0) (r.getD i 0))).map Nat.succ).map
          (fun i => pos + 1 + i)) =
        ((List.range r.length).filter
          (fun i => br ((t :: r).getD i 0) (r.getD i 0))).map (fun i => pos + 1 + 1 + i) := by
      rw [List.map_map]
      apply List.map_congr_left
      intro a ha
      show pos + 1 + Nat.succ a = pos + 1 + 1 + a
      omega
    have htail : pos + (r.length + 1) + 1 = pos + 1 + r.length + 1 := by omega
    by_cases hbr : br c t = true
    · rw [if_pos hbr, if_pos hbr, ih t (pos + 1)]
      simp only [List.map_cons, List.cons_append, hmap, htail]
    · rw [if_neg hbr, if_neg hbr, ih t (pos + 1)]
      simp only [hmap, htail]

theorem bwdM_eq_filter (br : Nat → Nat → Bool) (ls : List Nat) :
    ∀ (c pos : Nat),
      bwdM br pos c ls =
        (((List.range ls.length).filter
            (fun i => br (ls.getD i 0) ((c :: ls).getD i 0))).map (fun i => pos - i)) ++
          [0] := by
  induction ls with
  | nil => intro c pos; simp [bwdM]
  | cons l r ih =>
    intro c pos
    rw [bwdM, List.length_cons, List.range_succ_eq_map, List.filter_cons]
    simp only [List.getD_cons_zero]
    rw [filter_map_comm' Nat.succ _ (List.range r.length)]
    have hpred : (List.range r.length).filter
        (fun x => br ((l :: r).getD (Nat.succ x) 0) ((c :: l :: r).getD (Nat.succ x) 0)) =
        (List.range r.length).filter (fun i => br (r.getD i 0) ((l :: r).getD i 0)) := by
      apply List.filter_congr
      intro a ha
      rw [List.getD_cons_succ, List.getD_cons_succ]
    rw [hpred]
    have hmap : ((((List.range r.length).filter
          (fun i => br (r.getD i 0) ((l :: r).getD i 0))).map Nat.succ).map
          (fun i => pos - i)) =
        ((List.range r.length).filter
          (fun i => br (r.getD i 0) ((l :: r).getD i 0))).map (fun i => pos - 1 - i) := by
      rw [List.map_map]
      apply List.map_congr_left
      intro a ha
      show pos - Nat.succ a = pos - 1 - a
      omega
    by_cases hbr : br l c = true
    · rw [if_pos hbr, if_pos hbr, ih l (pos - 1)]
      simp only [List.map_cons, List.cons_append, hmap, Nat.sub_zero]
    · rw [if_neg hbr, if_neg hbr, ih l (pos - 1)]
      simp only [hmap]


theorem map_filter_range_reverse (m : Nat) (p : Nat → Bool) (f : Nat → Nat) :
    (((List.range m).filter p).map f).reverse =
      ((List.range m).filter (fun j => p (m - 1 - j))).map (fun j => f (m - 1 - j)) := by
  induction m generalizing p f with
  | zero => rfl
  | succ m ih =>
    conv_lhs => rw [List.range_succ]
    rw [List.filter_append, List.map_append, List.reverse_append]
    conv_rhs => rw [List.range_succ_eq_map, List.filter_cons]
    rw [filter_map_comm' Nat.succ _ (List.range m)]
    have hpred : (List.range m).filter (fun x => p (m + 1 - 1 - Nat.succ x)) =
        (List.range m).filter (fun j => p (m - 1 - j)) := by
      apply List.filter_congr
      intro a ha
      have : m + 1 - 1 - Nat.succ a = m - 1 - a := by omega
      rw [this]
    have hsimp : (m + 1 - 1 - 0) = m := by omega
    by_cases hp : p m = true
    · rw [if_pos (show p (m + 1 - 1 - 0) = true by rw [hsimp]; exact hp)]
      rw [show (List.filter p [m]) = [m] by simp [hp]]
      rw [ih]
      simp only [List.map_cons, List.map_nil, List.reverse_cons, List.reverse_nil,
        List.nil_append, List.cons_append, List.map_map]
      rw [hsimp]
      congr 1
      rw [hpred]
      apply List.map_congr_left
      intro a ha
      show f (m - 1 - a) = ((fun j => f (m + 1 - 1 - j)) ∘ Nat.succ) a
      simp only [Function.comp_apply]
      have heq : m + 1 - 1 - Nat.succ a = m - 1 - a := by omega
      rw [heq]
    · rw [if_neg (show ¬(p (m + 1 - 1 - 0) = true) by rw [hsimp]; exact hp)]
      rw [show (List.filter p [m]) = [] by simp [hp]]
      rw [ih]
      simp only [List.map_nil, List.reverse_nil, List.nil_append, List.map_map]
      rw [hpred]
      apply List.map_congr_left
      intro a ha
      show f (m - 1 - a) = ((fun j => f (m + 1 - 1 - j)) ∘ Nat.succ) a
      simp only [Function.comp_apply]
      have heq : m + 1 - 1 - Nat.succ a = m - 1 - a := by omega
      rw [heq]

theorem getD_reverse' (l : List Nat) (i : Nat) (h : i < l.length) :
    l.reverse.getD i 0 = l.getD (l.length - 1 - i) 0 := by
  have h1 : i < l.reverse.length := by simpa using h
  have h2 : l.length - 1 - i < l.length := by omega
  rw [List.getD_eq_getElem l.reverse 0 h1, List.getD_eq_getElem l 0 h2]
  exact List.getElem_reverse ..


/-- C2 (amended): for every category sequence containing no RegionalIndicator
(no element with low nibble 3), the forward scan and the backward scan produce
the same ordered set of boundary offsets.  (With RegionalIndicators present
the two-state approximation is asymmetric — see
`fwd_bwd_asymmetric_three_RI`.) -/
theorem fwd_bwd_symmetric_no_RI (cats : List Nat) (h : ∀ v ∈ cats, v &&& 15 ≠ 3) :
    fwdBounds cats = (bwdBounds cats).reverse := by
  match cats, h with
  | [], _ => rfl
  | c :: ts, h =>
    have hc : c &&& 15 ≠ 3 := h c (List.mem_cons_self c ts)
    have hts : ∀ v ∈ ts, v &&& 15 ≠ 3 := fun v hv => h v (List.mem_cons_of_mem c hv)
    obtain ⟨c', rest', hrev⟩ : ∃ c' rest', (c :: ts).reverse = c' :: rest' := by
      cases hh : (c :: ts).reverse with
      | nil =>
        exfalso
        have := congrArg List.length hh
        simp at this
      | cons a b => exact ⟨a, b, rfl⟩
    have hlen : rest'.length = ts.length := by
      have := congrArg List.length hrev
      simp only [List.length_reverse, List.length_cons] at this
      omega
    have hc' : c' &&& 15 ≠ 3 := by
      have hm : c' ∈ (c :: ts).reverse := by
        rw [hrev]
        exact List.mem_cons_self c' rest'
      exact h c' (List.mem_reverse.mp hm)
    have hrest' : ∀ v ∈ rest', v &&& 15 ≠ 3 := by
      intro v hv
      have hm : v ∈ (c :: ts).reverse := by
        rw [hrev]
        exact List.mem_cons_of_mem c' hv
      exact h v (List.mem_reverse.mp hm)
    have hgd : ∀ i, i < ts.length + 1 →
        (c' :: rest').getD i 0 = (c :: ts).getD (ts.length - i) 0 := by
      intro i hi
      rw [← hrev, getD_reverse' (c :: ts) i (by simpa using hi)]
      congr 1
    have hgdr : ∀ i, i < ts.length →
        rest'.getD i 0 = (c :: ts).getD (ts.length - 1 - i) 0 := by
      intro i hi
      have hstep : rest'.getD i 0 = (c' :: rest').getD (i + 1) 0 :=
        (List.getD_cons_succ ..).symm
      rw [hstep, hgd (i + 1) (by omega)]
      congr 1
      omega
    rw [fwdBounds, fwdBreaks_eq_fwdM ts 0 c hc hts, fwdM_eq_filter goBr ts c 0]
    rw [bwdBounds, hrev]
    dsimp only
    simp only [List.length_cons, Nat.add_sub_cancel]
    rw [bwdBreaks_eq_bwdM rest' ts.length c' hc' hrest',
      bwdM_eq_filter goBr rest' c' ts.length, hlen]
    simp only [Nat.zero_add]
    have hM : (((List.range ts.length).filter
          (fun i => goBr (rest'.getD i 0) ((c' :: rest').getD i 0))).map
          (fun i => ts.length - i)).reverse =
        ((List.range ts.length).filter
          (fun i => goBr ((c :: ts).getD i 0) (ts.getD i 0))).map (fun i => 1 + i) := by
      rw [map_filter_range_reverse]
      have hfil : (List.range ts.length).filter
            (fun j => goBr (rest'.getD (ts.length - 1 - j) 0)
              ((c' :: rest').getD (ts.length - 1 - j) 0)) =
          (List.range ts.length).filter
            (fun i => goBr ((c :: ts).getD i 0) (ts.getD i 0)) := by
        apply List.filter_congr
        intro j hj
        have hjm : j < ts.length := List.mem_range.mp hj
        rw [hgdr (ts.length - 1 - j) (by omega), hgd (ts.length - 1 - j) (by omega)]
        rw [show ts.length - 1 - (ts.length - 1 - j) = j by omega,
          show ts.length - (ts.length - 1 - j) = j + 1 by omega]
        rw [show (c :: ts).getD (j + 1) 0 = ts.getD j 0 from List.getD_cons_succ ..]
      rw [hfil]
      apply List.map_congr_left
      intro j hj
      have hjm : j < ts.length := List.mem_range.mp (List.mem_filter.mp hj).1
      show ts.length - (ts.length - 1 - j) = 1 + j
      omega
    rw [List.reverse_cons, List.reverse_append]
    simp only [List.reverse_cons, List.reverse_nil, List.nil_append, List.cons_append,
      List.append_assoc, List.nil_append]
    rw [hM]

/-- Witness: a RegionalIndicator-free sequence on which
`fwd_bwd_symmetric_no_RI` applies. -/
theorem fwd_bwd_symmetric_no_RI_witness :
    (∀ v ∈ [cbOther, cbExtend, cbControl, cbInCBConsonant], v &&& 15 ≠ 3) ∧
    fwdBounds [cbOther, cbExtend, cbControl, cbInCBConsonant] =
      (bwdBounds [cbOther, cbExtend, cbControl, cbInCBConsonant]).reverse :=
  ⟨by decide, fwd_bwd_symmetric_no_RI [cbOther, cbExtend, cbControl, cbInCBConsonant]
    (by decide)⟩


end CWDGen
